import Mathlib

/-!
Shallow embedding of `src/shell.py` (zillolo/shell-python).

Strings from the Python program are modelled as `List Char`; Python `int`
values as `Int`; `None`-able results as `Option`; exceptions as `Except`.
Each definition carries a comment naming the source function it embeds.
-/

/-- Embeds class `History` (shell.py lines 11-36): a list of committed
commands plus an integer selection index. -/
structure History (α : Type) where
  commands : List α
  selectedIndex : Int
deriving DecidableEq

/-- The state built by `History.__init__`: empty list, index 0. -/
def History.empty {α : Type} : History α := ⟨[], 0⟩

/-- Embeds `History.add`: append the command, then set the selection to
`len(self.__commands)` (evaluated after the append). -/
def History.add {α : Type} (h : History α) (c : α) : History α :=
  let cmds := h.commands ++ [c]
  { commands := cmds, selectedIndex := (cmds.length : Int) }

/-- Embeds `History.previous`: if `selectedIndex - 1 >= 0`, decrement the
index and return the entry there; otherwise return `None` unchanged.
Python list indexing at a nonnegative index is `l[i]?` at `i.toNat`. -/
def History.previous {α : Type} (h : History α) : Option α × History α :=
  if 0 ≤ h.selectedIndex - 1 then
    let h2 : History α := { h with selectedIndex := h.selectedIndex - 1 }
    (h2.commands[h2.selectedIndex.toNat]?, h2)
  else
    (none, h)

/-- Embeds `History.next`: if `selectedIndex + 1 < len(commands)`, increment
the index and return the entry there; otherwise return `None` unchanged. -/
def History.next {α : Type} (h : History α) : Option α × History α :=
  if h.selectedIndex + 1 < (h.commands.length : Int) then
    let h2 : History α := { h with selectedIndex := h.selectedIndex + 1 }
    (h2.commands[h2.selectedIndex.toNat]?, h2)
  else
    (none, h)

/-- Embeds `History.last`: the final element when the list is nonempty,
`None` otherwise. -/
def History.last {α : Type} (h : History α) : Option α :=
  if h.commands.length ≠ 0 then h.commands.getLast? else none

/-- A sequence of `History.add` calls, oldest first. -/
def History.addAll {α : Type} (h : History α) : List α → History α
  | [] => h
  | c :: cs => History.addAll (h.add c) cs

/-- Runs `n` successive `History.previous` calls, collecting the returned
options in call order together with the final state. -/
def History.prevN {α : Type} (h : History α) : Nat → List (Option α) × History α
  | 0 => ([], h)
  | Nat.succ n =>
    let r := h.previous
    let rest := History.prevN r.2 n
    (r.1 :: rest.1, rest.2)

theorem History.addAll_commands {α : Type} (cs : List α) :
    ∀ h : History α, (History.addAll h cs).commands = h.commands ++ cs := by
  induction cs with
  | nil => intro h; simp [History.addAll]
  | cons c cs ih =>
    intro h
    simp [History.addAll, ih, History.add]

theorem History.addAll_selectedIndex {α : Type} (cs : List α) :
    ∀ h : History α, cs ≠ [] →
      (History.addAll h cs).selectedIndex = ((h.commands ++ cs).length : Int) := by
  induction cs with
  | nil => intro h hne; exact absurd rfl hne
  | cons c cs ih =>
    intro h hne
    cases cs with
    | nil => simp [History.addAll, History.add]
    | cons d ds =>
      have := ih (h.add c) (by simp)
      simp only [History.addAll] at *
      rw [this]
      simp [History.add]

theorem History.empty_addAll_commands {α : Type} (es : List α) :
    (History.addAll History.empty es).commands = es := by
  rw [History.addAll_commands]
  simp [History.empty]

theorem History.empty_addAll_selectedIndex {α : Type} (es : List α) :
    (History.addAll History.empty es).selectedIndex = (es.length : Int) := by
  cases es with
  | nil => simp [History.addAll, History.empty]
  | cons c cs =>
    rw [History.addAll_selectedIndex _ _ (by simp)]
    simp [History.empty]

theorem History.prevN_at_zero {α : Type} (k : Nat) :
    ∀ h : History α, h.selectedIndex = 0 →
      History.prevN h k = (List.replicate k none, h) := by
  induction k with
  | zero => intro h h0; simp [History.prevN]
  | succ n ih =>
    intro h h0
    have hprev : h.previous = (none, h) := by
      simp [History.previous, h0]
    simp [History.prevN, hprev, ih h h0, List.replicate_succ]

theorem History.prevN_full {α : Type} (m : Nat) :
    ∀ (k : Nat) (es : List α) (h : History α),
      h.commands = es → h.selectedIndex = (m : Int) → m ≤ es.length →
      (History.prevN h (m + k)).1 =
        ((es.take m).reverse.map some) ++ List.replicate k none := by
  induction m with
  | zero =>
    intro k es h hc hs _
    rw [Nat.zero_add, History.prevN_at_zero k h (by simpa using hs)]
    simp
  | succ m ih =>
    intro k es h hc hs hle
    have hm : m < es.length := Nat.lt_of_lt_of_le (Nat.lt_succ_self m) hle
    have hguard : 0 ≤ h.selectedIndex - 1 := by rw [hs]; omega
    have htn : (h.selectedIndex - 1).toNat = m := by rw [hs]; omega
    have hget : es[m]? = some es[m] := List.getElem?_eq_getElem hm
    have hstep : h.previous =
        (some es[m], { h with selectedIndex := h.selectedIndex - 1 }) := by
      simp only [History.previous, if_pos hguard]
      rw [hc, htn, hget]
    have heq : Nat.succ m + k = Nat.succ (m + k) := by omega
    rw [heq]
    simp only [History.prevN, hstep]
    rw [ih k es ({ h with selectedIndex := h.selectedIndex - 1 }) hc
      (by simp only [hs]; push_cast; omega) (Nat.le_of_lt hm)]
    have htake : es.take (m + 1) = es.take m ++ [es[m]] := by
      rw [List.take_succ, hget]
      rfl
    have hrev : (es.take (m + 1)).reverse = es[m] :: (es.take m).reverse := by
      rw [htake, List.reverse_append]
      rfl
    rw [hrev, List.map_cons, List.cons_append]

/-- C4: for any sequence of `add` calls building entries `es` from a fresh
`History`, `last` returns the most recent entry (`none` exactly when no add
occurred); the first `es.length` calls to `previous` return the entries in
reverse-chronological order and every further call returns `none`; and
`next` immediately after the adds returns `none` without changing state. -/
theorem history_c4_navigation {α : Type} (es : List α) (k : Nat) :
    (History.addAll History.empty es).last = es.getLast? ∧
    ((History.addAll History.empty es).prevN (es.length + k)).1 =
      (es.reverse.map some) ++ List.replicate k none ∧
    (History.addAll History.empty es).next = (none, History.addAll History.empty es) := by
  refine ⟨?_, ?_, ?_⟩
  · rw [History.last, History.empty_addAll_commands]
    cases es with
    | nil => simp
    | cons c cs => simp
  · rw [History.prevN_full es.length k es _
      (History.empty_addAll_commands es)
      (History.empty_addAll_selectedIndex es) (Nat.le_refl _)]
    simp
  · rw [History.next]
    rw [if_neg]
    rw [History.empty_addAll_commands, History.empty_addAll_selectedIndex]
    omega

/-- C5 counterexample: on the history with entries `[5]` and selection `0`
(reached by one successful `previous` after an `add`), the moved selection
`0 + 1 = 1` is within the invariant bounds `0 ≤ selection ≤ len(entries) = 1`,
yet `next` returns `none` and does not move the selection — so `next` does
not undo the preceding `previous`, contradicting the claim. -/
theorem history_c5_counterexample :
    (((History.empty : History Nat).add 5).previous.2.selectedIndex + 1
        ≤ ((((History.empty : History Nat).add 5).previous.2.commands.length : Nat) : Int)) ∧
    ((History.empty : History Nat).add 5).previous.2.next.1 = none ∧
    ((History.empty : History Nat).add 5).previous.2.next.2.selectedIndex = 0 ∧
    ((History.empty : History Nat).add 5).previous.1 = some 5 ∧
    ((History.empty : History Nat).add 5).selectedIndex = 1 := by
  decide

/-- C5 (amended): under the invariant `0 ≤ selection ≤ len(entries)`,
`previous` moves the selection by −1 and returns an entry whenever
`1 ≤ selection`, and returns `none` without moving only at `selection = 0`;
`next` moves the selection by +1 and returns an entry only when
`selection + 1 < len(entries)`, and returns `none` without moving whenever
`selection + 1 ≥ len(entries)` — in particular also at
`selection = len(entries) − 1`, not only at the past-the-end boundary;
consequently `next` undoes a successful `previous` exactly when the
selection before the `previous` was strictly less than `len(entries)`. -/
theorem history_c5_amended {α : Type} (h : History α)
    (hinv0 : 0 ≤ h.selectedIndex)
    (hinv1 : h.selectedIndex ≤ (h.commands.length : Int)) :
    (1 ≤ h.selectedIndex →
      h.previous.2.selectedIndex = h.selectedIndex - 1 ∧
      h.previous.1.isSome = true ∧ h.previous.2.commands = h.commands) ∧
    (h.selectedIndex = 0 → h.previous = (none, h)) ∧
    (h.selectedIndex + 1 < (h.commands.length : Int) →
      h.next.2.selectedIndex = h.selectedIndex + 1 ∧
      h.next.1.isSome = true ∧ h.next.2.commands = h.commands) ∧
    ((h.commands.length : Int) ≤ h.selectedIndex + 1 → h.next = (none, h)) ∧
    (1 ≤ h.selectedIndex → h.selectedIndex < (h.commands.length : Int) →
      h.previous.2.next.2 = h) := by
  obtain ⟨cs, s⟩ := h
  simp only at hinv0 hinv1
  refine ⟨?_, ?_, ?_, ?_, ?_⟩
  · intro h1
    simp only at h1
    have hguard : 0 ≤ s - 1 := by omega
    simp only [History.previous, if_pos hguard, true_and, and_true]
    rw [Option.isSome_iff_exists]
    have hlt : (s - 1).toNat < cs.length := by omega
    rw [List.getElem?_eq_getElem hlt]
    exact ⟨_, rfl⟩
  · intro h0
    simp only at h0
    simp [History.previous, h0]
  · intro hlt
    simp only at hlt
    simp only [History.next, if_pos hlt, true_and, and_true]
    rw [Option.isSome_iff_exists]
    have hlt2 : (s + 1).toNat < cs.length := by omega
    rw [List.getElem?_eq_getElem hlt2]
    exact ⟨_, rfl⟩
  · intro hge
    simp only at hge
    simp only [History.next]
    rw [if_neg (by omega)]
  · intro h1 h2
    simp only at h1 h2
    have hguard : 0 ≤ s - 1 := by omega
    simp only [History.previous, if_pos hguard, History.next]
    rw [if_pos (by omega)]
    dsimp only
    have hs : s - 1 + 1 = s := by omega
    rw [hs]

/-- C5 amended, instantiated: the history `⟨[10, 20], 2⟩` satisfies the
invariant, and a `previous` followed by a `next` restores the state. -/
theorem history_c5_amended_witness :
    (0 : Int) ≤ (⟨[10, 20], 1⟩ : History Nat).selectedIndex ∧
    (⟨[10, 20], 1⟩ : History Nat).selectedIndex
      ≤ (((⟨[10, 20], 1⟩ : History Nat).commands.length : Nat) : Int) ∧
    (⟨[10, 20], 1⟩ : History Nat).previous.2.next.2 = (⟨[10, 20], 1⟩ : History Nat) := by
  refine ⟨by decide, by decide, ?_⟩
  exact (history_c5_amended (⟨[10, 20], 1⟩ : History Nat) (by decide)
    (by decide)).2.2.2.2 (by decide) (by decide)

/-- Embeds nested class `Shell.Writer.Cursor` (shell.py lines 199-222):
a 2D position with integer coordinates. -/
structure Cursor where
  x : Int
  y : Int
deriving DecidableEq

/-- An effect applied to the curses window by the Writer (`scroll`,
`clrtoeol`, `addch`, `move`, `refresh` calls on `self.__window`). -/
inductive SurfOp where
  | scroll : SurfOp
  | clrtoeol : Int → SurfOp
  | addch : Int → Int → Char → SurfOp
  | move : Int → Int → SurfOp
  | refresh : SurfOp
deriving DecidableEq

/-- True exactly on the `scroll` effect. -/
def SurfOp.isScroll : SurfOp → Bool
  | SurfOp.scroll => true
  | _ => false

/-- Number of `window.scroll` invocations in an effect trace. -/
def scrollCount (ops : List SurfOp) : Nat := ops.countP SurfOp.isScroll

/-- Embeds the per-character body of `Shell.Writer.__print` (shell.py lines
250-264): `\n` resets the column and scrolls when `y + 1 >= height`,
otherwise moves the cursor down; `\r` resets the column, moves the physical
cursor and clears to end of line; any other character is written at the
cursor and the column advances. Returns the new cursor and the window
effects, in order. -/
def printChar (height : Int) (cur : Cursor) (c : Char) : Cursor × List SurfOp :=
  if c = '\n' then
    if cur.y + 1 ≥ height then
      ({ cur with x := 0 }, [SurfOp.scroll])
    else
      ({ x := 0, y := cur.y + 1 }, [])
  else if c = '\r' then
    ({ cur with x := 0 }, [SurfOp.move cur.y 0, SurfOp.clrtoeol cur.y])
  else
    ({ cur with x := cur.x + 1 }, [SurfOp.addch cur.y cur.x c])

/-- Embeds `Shell.Writer.__print` (shell.py lines 248-264): fold
`printChar` over the characters of the message. -/
def printMessage (height : Int) (cur : Cursor) : List Char → Cursor × List SurfOp
  | [] => (cur, [])
  | c :: rest =>
    let s1 := printChar height cur c
    let s2 := printMessage height s1.1 rest
    (s2.1, s1.2 ++ s2.2)

/-- The Writer consuming a list of fragments in FIFO order, as the drain
loop of `Shell.Writer.run` does while not stopped: each fragment is applied
with `__print`. -/
def processFragments (height : Int) (cur : Cursor) : List (List Char) → Cursor × List SurfOp
  | [] => (cur, [])
  | m :: rest =>
    let s1 := printMessage height cur m
    let s2 := processFragments height s1.1 rest
    (s2.1, s1.2 ++ s2.2)

/-- Embeds the state of `Shell.Writer` (shell.py lines 224-230): the stop
flag, the FIFO queue (`Queue.put` appends at the back, `Queue.get` takes the
front), the private cursor, and the trace of window effects so far. -/
structure Shell.Writer where
  stopCalled : Bool
  queue : List (List Char)
  cursor : Cursor
  output : List SurfOp
deriving DecidableEq

/-- Embeds `Shell.Writer.add` (shell.py lines 232-234): enqueue the message
unless it `is None`. -/
def Shell.Writer.add (s : Shell.Writer) (message : Option (List Char)) : Writer :=
  match message with
  | some m => { s with queue := s.queue ++ [m] }
  | none => s

/-- One iteration of the body of the `while` loop in `Shell.Writer.run`
(shell.py lines 237-242): if the queue is non-empty, dequeue one message,
`__print` it, move the physical cursor to the Cursor position and refresh;
otherwise do nothing (the `sleep` sits after the loop, not in it). -/
def Shell.Writer.runIter (height : Int) (s : Shell.Writer) : Writer :=
  match s.queue with
  | [] => s
  | m :: rest =>
    let r := printMessage height s.cursor m
    { s with
        queue := rest
        cursor := r.1
        output := s.output ++ r.2 ++ [SurfOp.move r.1.y r.1.x, SurfOp.refresh] }

/-- Embeds the `while not self.__stopCalled` loop of `Shell.Writer.run`
(shell.py lines 236-243), run for at most `fuel` checks of the loop
condition: returns `some` final state when the loop condition was observed
false (the thread finishes), `none` if the fuel ran out first. The flag is
only ever set by `stop()` from the other thread, so within the loop it is
constant. -/
def Shell.Writer.runLoop (height : Int) : Nat → Shell.Writer → Option Shell.Writer
  | 0, _ => none
  | Nat.succ fuel, s =>
    if s.stopCalled then some s
    else Shell.Writer.runLoop height fuel (Shell.Writer.runIter height s)

/-- A Writer state in which `stop()` has been called while a fragment is
still queued and nothing has been printed yet. -/
def stoppedPending : Shell.Writer :=
  { stopCalled := true
  , queue := [['l', 'o', 's', 't']]
  , cursor := ⟨0, 0⟩
  , output := [] }

/-- C1 counterexample: from a state where `stop()` has been called while a
fragment is still queued, the drain loop of `run()` terminates at its very
next check of the loop condition with the fragment still in the queue and
no window effect produced — the queued fragment is never printed. -/
theorem writer_c1_counterexample :
    Shell.Writer.runLoop 24 1 stoppedPending = some stoppedPending ∧
    stoppedPending.queue ≠ [] ∧
    stoppedPending.output = [] := by
  decide

/-- C1 (amended): the drain loop honours `stop()` immediately: whenever the
stop flag is observed set at the top of the loop, `run()` terminates at once
with the state (queue included) unchanged, dropping any still-queued
fragments; fragments are dequeued and printed only by iterations at whose
start the stop flag was still unset. -/
theorem writer_c1_amended (height : Int) (fuel : Nat) (s : Shell.Writer) :
    (s.stopCalled = true → Shell.Writer.runLoop height (fuel + 1) s = some s) ∧
    (s.stopCalled = false →
      Shell.Writer.runLoop height (fuel + 1) s =
        Shell.Writer.runLoop height fuel (Shell.Writer.runIter height s)) := by
  constructor
  · intro hstop
    simp [Shell.Writer.runLoop, hstop]
  · intro hrun
    simp [Shell.Writer.runLoop, hrun]

/-- C1 amended, instantiated at the counterexample state: the stop flag is
set and the loop exits immediately with the state unchanged. -/
theorem writer_c1_amended_witness :
    stoppedPending.stopCalled = true ∧
    Shell.Writer.runLoop 24 7 stoppedPending = some stoppedPending :=
  ⟨rfl, (writer_c1_amended 24 6 stoppedPending).1 rfl⟩

/-- C8 counterexample: `Writer.add` applied to the empty fragment `""` is
not a no-op — the empty fragment is enqueued, because the code only guards
against `None` (`if message is not None`). -/
theorem writer_c8_counterexample :
    ((⟨false, [], ⟨0, 0⟩, []⟩ : Shell.Writer).add (some [])).queue = [[]] ∧
    ((⟨false, [], ⟨0, 0⟩, []⟩ : Shell.Writer).add (some [])).queue ≠
      (⟨false, [], ⟨0, 0⟩, []⟩ : Shell.Writer).queue := by
  decide

/-- C8 (amended): `Writer.add` is a no-op exactly when the fragment is
absent (`None`), and for every present fragment — the empty string
included — it enqueues exactly that fragment at the back of the queue. -/
theorem writer_c8_amended (s : Shell.Writer) (m : List Char) :
    s.add none = s ∧ (s.add (some m)).queue = s.queue ++ [m] ∧
    (s.add (some m)).stopCalled = s.stopCalled ∧
    (s.add (some m)).cursor = s.cursor ∧
    (s.add (some m)).output = s.output := by
  refine ⟨rfl, rfl, rfl, rfl, rfl⟩

theorem scrollCount_append (a b : List SurfOp) :
    scrollCount (a ++ b) = scrollCount a + scrollCount b := by
  simp [scrollCount, List.countP_append]

theorem printMessage_newlines (H : Int) (n : Nat) :
    ∀ y : Int, 0 ≤ y → y ≤ H - 1 →
      (printMessage H ⟨0, y⟩ (List.replicate n '\n')).1 = ⟨0, min (y + n) (H - 1)⟩ ∧
      ((scrollCount (printMessage H ⟨0, y⟩ (List.replicate n '\n')).2 : Int) =
        y + n - min (y + n) (H - 1)) := by
  induction n with
  | zero =>
    intro y h0 h1
    have hmin : min (y + ((0 : Nat) : Int)) (H - 1) = y + ((0 : Nat) : Int) := by
      apply min_eq_left
      push_cast
      omega
    refine ⟨?_, ?_⟩
    · simp only [List.replicate, printMessage]
      rw [hmin]
      simp
    · simp only [List.replicate, printMessage, scrollCount, List.countP_nil]
      rw [hmin]
      omega
  | succ n ih =>
    intro y h0 h1
    rw [List.replicate_succ]
    by_cases hy : y + 1 ≥ H
    · have hpc : printChar H ⟨0, y⟩ '\n' = (⟨0, y⟩, [SurfOp.scroll]) := by
        simp [printChar, hy]
      have e1 : min (y + (n : Int)) (H - 1) = H - 1 := by
        apply min_eq_right
        omega
      have e2 : min (y + ((n + 1 : Nat) : Int)) (H - 1) = H - 1 := by
        apply min_eq_right
        push_cast
        omega
      obtain ⟨ihc, ihs⟩ := ih y h0 h1
      simp only [printMessage, hpc]
      refine ⟨?_, ?_⟩
      · rw [ihc, Cursor.mk.injEq]
        rw [e1, e2]
        exact ⟨rfl, rfl⟩
      · rw [scrollCount_append, e2]
        rw [e1] at ihs
        have hone : scrollCount [SurfOp.scroll] = 1 := by decide
        rw [hone]
        omega
    · have hpc : printChar H ⟨0, y⟩ '\n' = (⟨0, y + 1⟩, []) := by
        simp [printChar, hy]
      have hadd : y + 1 + (n : Int) = y + ((n + 1 : Nat) : Int) := by
        push_cast
        ring
      obtain ⟨ihc, ihs⟩ := ih (y + 1) (by omega) (by omega)
      simp only [printMessage, hpc]
      refine ⟨?_, ?_⟩
      · rw [ihc, hadd]
      · rw [scrollCount_append]
        have hzero : scrollCount ([] : List SurfOp) = 0 := by decide
        rw [hzero]
        rw [hadd] at ihs
        omega

theorem printChar_newline_pos (H cx cy : Int) (hy : H ≤ cy + 1) :
    printChar H ⟨cx, cy⟩ '\n' = (⟨0, cy⟩, [SurfOp.scroll]) := by
  simp [printChar, hy]

theorem printChar_newline_neg (H cx cy : Int) (hy : cy + 1 < H) :
    printChar H ⟨cx, cy⟩ '\n' = (⟨0, cy + 1⟩, []) := by
  have hn : ¬ (H ≤ cy + 1) := by omega
  simp [printChar, hn]

theorem printChar_cr (H cx cy : Int) :
    printChar H ⟨cx, cy⟩ '\r' = (⟨0, cy⟩, [SurfOp.move cy 0, SurfOp.clrtoeol cy]) := by
  simp [printChar]

/-- C2 counterexample: with viewport height `H = 1`, printing `H + 1 = 2`
newline characters from the initial cursor position invokes the surface
scroll twice, not exactly once as claimed. -/
theorem writer_c2_counterexample :
    scrollCount (printMessage 1 ⟨0, 0⟩ (List.replicate 2 '\n')).2 = 2 ∧
    scrollCount (printMessage 1 ⟨0, 0⟩ (List.replicate 2 '\n')).2 ≠ 1 := by
  decide

/-- C2 (amended): for every viewport height `H ≥ 1`, printing `H + 1`
newlines from the initial cursor position invokes the surface scroll
exactly twice (the scroll branch fires on the `H`-th and `(H+1)`-th
newline); at every intermediate and final state the cursor row never
exceeds `H − 1`; and each `\n` resets the column to 0 and either scrolls
with the row unchanged (when `row + 1` would reach or exceed `H`) or
increments the row. -/
theorem writer_c2_amended (H k : Nat) (cur : Cursor)
    (h1 : 1 ≤ H) (h2 : k ≤ H + 1) :
    scrollCount (printMessage (H : Int) ⟨0, 0⟩ (List.replicate (H + 1) '\n')).2 = 2 ∧
    (printMessage (H : Int) ⟨0, 0⟩ (List.replicate k '\n')).1.y ≤ (H : Int) - 1 ∧
    (printChar (H : Int) cur '\n').1.x = 0 ∧
    (cur.y + 1 ≥ (H : Int) →
      printChar (H : Int) cur '\n' = ({ cur with x := 0 }, [SurfOp.scroll])) ∧
    (cur.y + 1 < (H : Int) →
      printChar (H : Int) cur '\n' = (⟨0, cur.y + 1⟩, [])) := by
  refine ⟨?_, ?_, ?_, ?_, ?_⟩
  · obtain ⟨_, hs⟩ := printMessage_newlines (H : Int) (H + 1) 0 le_rfl (by omega)
    rw [min_eq_right (by push_cast; omega)] at hs
    omega
  · obtain ⟨hc, _⟩ := printMessage_newlines (H : Int) k 0 le_rfl (by omega)
    rw [hc]
    exact min_le_right _ _
  · cases cur with
    | mk cx cy =>
      by_cases hy : (H : Int) ≤ cy + 1
      · rw [printChar_newline_pos _ _ _ hy]
      · rw [printChar_newline_neg _ _ _ (by omega)]
  · intro hy
    cases cur with
    | mk cx cy => exact printChar_newline_pos _ _ _ hy
  · intro hy
    cases cur with
    | mk cx cy => exact printChar_newline_neg _ _ _ hy

/-- C2 amended, instantiated at `H = 2`: three newlines from the origin
scroll exactly twice. -/
theorem writer_c2_amended_witness :
    1 ≤ 2 ∧ 3 ≤ 2 + 1 ∧
    scrollCount (printMessage ((2 : Nat) : Int) ⟨0, 0⟩ (List.replicate (2 + 1) '\n')).2 = 2 :=
  ⟨by decide, by decide, (writer_c2_amended 2 3 ⟨4, 9⟩ (by decide) (by decide)).1⟩

theorem printChar_bounds (H : Int) (cur : Cursor) (c : Char)
    (h : 0 ≤ cur.x ∧ 0 ≤ cur.y ∧ cur.y < H) :
    0 ≤ (printChar H cur c).1.x ∧ 0 ≤ (printChar H cur c).1.y ∧
      (printChar H cur c).1.y < H := by
  obtain ⟨hx, hy, hyH⟩ := h
  simp only [printChar]
  split_ifs <;> refine ⟨?_, ?_, ?_⟩ <;> simp <;> omega

theorem printMessage_bounds (H : Int) (msg : List Char) :
    ∀ cur : Cursor, 0 ≤ cur.x ∧ 0 ≤ cur.y ∧ cur.y < H →
      0 ≤ (printMessage H cur msg).1.x ∧ 0 ≤ (printMessage H cur msg).1.y ∧
        (printMessage H cur msg).1.y < H := by
  induction msg with
  | nil => intro cur h; simpa [printMessage] using h
  | cons c rest ih =>
    intro cur h
    simp only [printMessage]
    exact ih _ (printChar_bounds H cur c h)

theorem processFragments_bounds (H : Int) (frags : List (List Char)) :
    ∀ cur : Cursor, 0 ≤ cur.x ∧ 0 ≤ cur.y ∧ cur.y < H →
      0 ≤ (processFragments H cur frags).1.x ∧
      0 ≤ (processFragments H cur frags).1.y ∧
      (processFragments H cur frags).1.y < H := by
  induction frags with
  | nil => intro cur h; simpa [processFragments] using h
  | cons m rest ih =>
    intro cur h
    simp only [processFragments]
    exact ih _ (printMessage_bounds H m cur h)

/-- C9: with a positive viewport height `H`, after the Writer processes any
sequence of fragments starting from cursor `(0, 0)` the cursor satisfies
`column ≥ 0`, `row ≥ 0` and `row < H`; and processing `\n` or `\r` resets
the column to 0. -/
theorem writer_c9_cursor_invariant (H : Int) (frags : List (List Char)) (cur : Cursor)
    (h : 1 ≤ H) :
    (0 ≤ (processFragments H ⟨0, 0⟩ frags).1.x ∧
     0 ≤ (processFragments H ⟨0, 0⟩ frags).1.y ∧
     (processFragments H ⟨0, 0⟩ frags).1.y < H) ∧
    (printChar H cur '\n').1.x = 0 ∧
    (printChar H cur '\r').1.x = 0 := by
  refine ⟨processFragments_bounds H frags ⟨0, 0⟩ ⟨le_refl 0, le_refl 0, show (0 : Int) < H by omega⟩, ?_, ?_⟩
  · cases cur with
    | mk cx cy =>
      by_cases hy : H ≤ cy + 1
      · rw [printChar_newline_pos _ _ _ hy]
      · rw [printChar_newline_neg _ _ _ (by omega)]
  · cases cur with
    | mk cx cy => rw [printChar_cr]

/-- C9, instantiated at `H = 1` with two fragments containing text, a
newline and a carriage return. -/
theorem writer_c9_cursor_invariant_witness :
    (1 : Int) ≤ 1 ∧
    (0 ≤ (processFragments 1 ⟨0, 0⟩ [['a', '\n'], ['\r', 'b']]).1.x ∧
     0 ≤ (processFragments 1 ⟨0, 0⟩ [['a', '\n'], ['\r', 'b']]).1.y ∧
     (processFragments 1 ⟨0, 0⟩ [['a', '\n'], ['\r', 'b']]).1.y < 1) ∧
    (printChar 1 (⟨7, 0⟩ : Cursor) '\n').1.x = 0 ∧
    (printChar 1 (⟨7, 0⟩ : Cursor) '\r').1.x = 0 :=
  ⟨by decide, writer_c9_cursor_invariant 1 [['a', '\n'], ['\r', 'b']] ⟨7, 0⟩ (by decide)⟩

/-- The whitespace predicate of Python `str.strip()` / `str.split()` on the
ASCII range used by the shell: space, tab, newline, carriage return,
vertical tab, form feed. -/
def pyIsSpace (c : Char) : Bool :=
  c == ' ' || c == '\t' || c == '\n' || c == '\x0d' ||
    c == Char.ofNat 11 || c == Char.ofNat 12

/-- Python `str.strip()`: drop whitespace from both ends. -/
def strip (s : List Char) : List Char :=
  ((s.dropWhile pyIsSpace).reverse.dropWhile pyIsSpace).reverse

/-- Helper for `pySplit`: scan with an accumulator of the current word,
emitting completed words at whitespace boundaries. -/
def splitAux : List Char → List Char → List (List Char)
  | [], acc => if acc.isEmpty then [] else [acc.reverse]
  | c :: rest, acc =>
    if pyIsSpace c then
      if acc.isEmpty then splitAux rest [] else acc.reverse :: splitAux rest []
    else
      splitAux rest (c :: acc)

/-- Python `str.split()` with no argument: split on runs of whitespace,
discarding empty tokens. -/
def pySplit (s : List Char) : List (List Char) := splitAux s []

theorem splitAux_ne_nil_of_acc {s : List Char} :
    ∀ acc : List Char, acc ≠ [] → splitAux s acc ≠ [] := by
  induction s with
  | nil =>
    intro acc hacc
    simp [splitAux, hacc]
  | cons c rest ih =>
    intro acc hacc
    simp only [splitAux]
    by_cases hc : pyIsSpace c
    · rw [if_pos hc, if_neg (by simpa using hacc)]
      simp
    · rw [if_neg hc]
      exact ih (c :: acc) (by simp)

theorem splitAux_ne_nil_of_mem {s : List Char} :
    ∀ acc : List Char, ∀ c ∈ s, pyIsSpace c = false → splitAux s acc ≠ [] := by
  induction s with
  | nil => intro acc c hc; simp at hc
  | cons d rest ih =>
    intro acc c hc hcs
    simp only [splitAux]
    by_cases hd : pyIsSpace d
    · rw [if_pos hd]
      have hcr : c ∈ rest := by
        rcases List.mem_cons.mp hc with h | h
        · rw [h] at hcs; rw [hcs] at hd; simp at hd
        · exact h
      by_cases hacc : acc.isEmpty
      · rw [if_pos hacc]
        exact ih [] c hcr hcs
      · rw [if_neg hacc]
        simp
    · rw [if_neg hd]
      exact splitAux_ne_nil_of_acc (d :: acc) (by simp)

theorem pySplit_ne_nil_of_mem {s : List Char} {c : Char}
    (hc : c ∈ s) (hcs : pyIsSpace c = false) : pySplit s ≠ [] :=
  splitAux_ne_nil_of_mem [] c hc hcs

theorem head_dropWhile_false {p : Char → Bool} :
    ∀ {l : List Char} {x : Char}, (l.dropWhile p).head? = some x → p x = false := by
  intro l
  induction l with
  | nil => intro x hx; simp [List.dropWhile] at hx
  | cons c rest ih =>
    intro x hx
    by_cases hc : p c
    · rw [List.dropWhile_cons_of_pos hc] at hx
      exact ih hx
    · rw [List.dropWhile_cons_of_neg hc] at hx
      simp only [List.head?_cons, Option.some.injEq] at hx
      rw [← hx]
      simpa using hc

theorem strip_has_nonspace {s : List Char} (hne : strip s ≠ []) :
    ∃ c ∈ strip s, pyIsSpace c = false := by
  set d := (s.dropWhile pyIsSpace).reverse.dropWhile pyIsSpace with hd
  have hdne : d ≠ [] := by
    intro habs
    apply hne
    rw [strip, ← hd, habs]
    rfl
  cases hD : d with
  | nil => exact absurd hD hdne
  | cons x xs =>
    have hx : d.head? = some x := by rw [hD]; rfl
    have hpx : pyIsSpace x = false := head_dropWhile_false (by rw [hd] at hx; exact hx)
    refine ⟨x, ?_, hpx⟩
    rw [strip, ← hd, hD]
    simp

theorem pySplit_strip_ne_nil {s : List Char} (hne : strip s ≠ []) :
    pySplit (strip s) ≠ [] := by
  obtain ⟨c, hcm, hcs⟩ := strip_has_nonspace hne
  exact pySplit_ne_nil_of_mem hcm hcs

theorem strip_append_space {s : List Char} {c : Char} (hc : pyIsSpace c = true) :
    strip (s ++ [c]) = strip s := by
  rw [strip, strip, List.dropWhile_append]
  by_cases he : (s.dropWhile pyIsSpace).isEmpty
  · rw [if_pos he]
    have h1 : (([c] : List Char).dropWhile pyIsSpace) = [] := by
      rw [List.dropWhile_cons_of_pos hc]
      rfl
    have h2 : s.dropWhile pyIsSpace = [] := by
      simpa using he
    rw [h1, h2]
  · rw [if_neg he]
    rw [List.reverse_append]
    have h3 : (([c] : List Char).reverse ++ (s.dropWhile pyIsSpace).reverse) =
        c :: (s.dropWhile pyIsSpace).reverse := by
      rfl
    rw [h3, List.dropWhile_cons_of_pos hc]

/-- Python builtin `chr`: defined for code points `0 ≤ c ≤ 0x10FFFF` and a
`ValueError` otherwise. Lean `Char` cannot carry the surrogate range
0xD800-0xDFFF, which Python `chr` does accept; no claim settled here
involves a surrogate code, so those are mapped to `none` as well. -/
def pyChr (code : Int) : Option Char :=
  if 0 ≤ code ∧ (code < 0xD800 ∨ (0xDFFF < code ∧ code ≤ 0x10FFFF)) then
    some (Char.ofNat code.toNat)
  else
    none

/-- ncurses `curses.KEY_ENTER` (octal 0527). -/
def KEY_ENTER : Int := 343

/-- ncurses `curses.KEY_BACKSPACE` (octal 0407). -/
def KEY_BACKSPACE : Int := 263

/-- ncurses `curses.KEY_UP` (octal 0403). -/
def KEY_UP : Int := 259

/-- ncurses `curses.KEY_DOWN` (octal 0402). -/
def KEY_DOWN : Int := 258

/-- The uncaught Python exception relevant to `Shell.__fetch`: `chr` raises
`ValueError` on an out-of-range code (only `KeyboardInterrupt` is caught in
the loop). -/
inductive PyErr where
  | valueError : PyErr
deriving DecidableEq

/-- State of `Shell.__fetch` (shell.py lines 117-148): the in-progress line
buffer, the Shell's history, and the fragments passed to `writer.add` so
far. -/
structure FetchState where
  command : List Char
  history : History (List Char)
  writes : List (List Char)
deriving DecidableEq

/-- The redraw at shell.py line 143: pass the fragment
`"\r" + PROMPT + command` to `writer.add`. -/
def redrawWrite (prompt : List Char) (st : FetchState) : FetchState :=
  { st with writes := st.writes ++ [('\r' :: prompt) ++ st.command] }

/-- One iteration of the key loop of `Shell.__fetch` (shell.py lines
120-146) on a delivered key code: enter commits when the stripped buffer is
non-empty (appending `"\n"` and breaking) and otherwise emits a bare
newline; backspace drops the last buffer character; up/down consult the
history and replace the buffer when an entry is returned; any other code is
passed to `chr` — an out-of-range code raises `ValueError`, otherwise the
character is appended. Every non-breaking iteration ends with the prompt
redraw. Returns the new state and whether the loop broke. -/
def fetchStep (prompt : List Char) (st : FetchState) (code : Int) :
    Except PyErr (FetchState × Bool) :=
  if code = KEY_ENTER ∨ code = 10 then
    if (strip st.command).length ≠ 0 then
      Except.ok ({ st with command := st.command ++ ['\n'] }, true)
    else
      Except.ok (redrawWrite prompt { st with writes := st.writes ++ [['\n']] }, false)
  else if code = KEY_BACKSPACE then
    Except.ok (redrawWrite prompt { st with command := st.command.dropLast }, false)
  else if code = KEY_UP then
    let r := st.history.previous
    Except.ok (redrawWrite prompt
      { st with
          command := match r.1 with | some t => t | none => st.command
          history := r.2 }, false)
  else if code = KEY_DOWN then
    let r := st.history.next
    Except.ok (redrawWrite prompt
      { st with
          command := match r.1 with | some t => t | none => st.command
          history := r.2 }, false)
  else
    match pyChr code with
    | none => Except.error PyErr.valueError
    | some c => Except.ok (redrawWrite prompt { st with command := st.command ++ [c] }, false)

/-- Embeds `Shell.__fetch` over a finite list of delivered key codes: `ok (some
final)` when a line is committed (the loop breaks, then
`writer.add("\n")` and `history.add(command.strip())` run), `ok none` when
the keys are exhausted while still editing (the real loop would block for
the next key), `error` when `chr` raises. -/
def fetchLoop (prompt : List Char) (st : FetchState) :
    List Int → Except PyErr (Option FetchState)
  | [] => Except.ok none
  | k :: ks =>
    match fetchStep prompt st k with
    | Except.error e => Except.error e
    | Except.ok (st2, true) =>
      Except.ok (some { st2 with
        writes := st2.writes ++ [['\n']]
        history := st2.history.add (strip st2.command) })
    | Except.ok (st2, false) => fetchLoop prompt st2 ks

/-- C3 (defect in the code): the raw key code `-1` (curses `getch` returns
`ERR = -1`, e.g. after an interrupted read) matches none of the handled
keys, so the loop body computes `chr(-1)`, which raises an uncaught
`ValueError` out of the fetch loop instead of rejecting or ignoring the
unmappable code — exactly the crash recorded by the `FIXME` comment at
shell.py line 121. -/
theorem fetch_c3_unmappable_code_raises :
    fetchStep [] ⟨[], History.empty, []⟩ (-1) = Except.error PyErr.valueError ∧
    pyChr (-1) = none :=
  ⟨rfl, rfl⟩

theorem fetchStep_break {prompt : List Char} {st st2 : FetchState} {code : Int}
    (hstep : fetchStep prompt st code = Except.ok (st2, true)) :
    st2.command = st.command ++ ['\n'] ∧ (strip st.command).length ≠ 0 := by
  unfold fetchStep at hstep
  split at hstep
  · split at hstep
    next hcond =>
      simp only [Except.ok.injEq, Prod.mk.injEq, and_true] at hstep
      subst hstep
      exact ⟨rfl, hcond⟩
    next hcond =>
      simp [redrawWrite] at hstep
  · split at hstep
    · simp [redrawWrite] at hstep
    · split at hstep
      · simp [redrawWrite] at hstep
      · split at hstep
        · simp [redrawWrite] at hstep
        · split at hstep
          · simp at hstep
          · simp [redrawWrite] at hstep

theorem History.last_add {α : Type} (h : History α) (c : α) :
    (h.add c).last = some c := by
  rw [History.last, History.add]
  simp

/-- Embeds `Shell.__replaceEnvironmentVars` (shell.py lines 173-182): for
each token, if it starts with `$`, look the rest of the token up in the
environment; replace the token when a value is bound, keep it otherwise. -/
def replaceEnvironmentVars (env : List Char → Option (List Char)) :
    List (List Char) → List (List Char)
  | [] => []
  | t :: rest =>
    (if t.head? = some '$' then
      match env (t.drop 1) with
      | some v => v
      | none => t
    else t) :: replaceEnvironmentVars env rest

theorem replaceEnvironmentVars_length (env : List Char → Option (List Char)) :
    ∀ l : List (List Char), (replaceEnvironmentVars env l).length = l.length := by
  intro l
  induction l with
  | nil => rfl
  | cons t rest ih => simp [replaceEnvironmentVars, ih]

/-- C10: whenever the fetch loop commits a line (so `__execute` runs
immediately afterwards), the most recent History entry is a stripped,
non-empty string; its whitespace tokenization has at least one token; and
environment substitution preserves the token count, so the dispatcher's
read of `command[0]` cannot fail for any environment. -/
theorem fetch_c10_dispatch_safety (prompt : List Char) (st : FetchState)
    (keys : List Int) (final : FetchState)
    (hrun : fetchLoop prompt st keys = Except.ok (some final)) :
    ∃ e, final.history.last = some e ∧ (∃ raw, e = strip raw) ∧ e ≠ [] ∧
      1 ≤ (pySplit e).length ∧
      ∀ env : List Char → Option (List Char),
        (replaceEnvironmentVars env (pySplit e)).length = (pySplit e).length ∧
        ((replaceEnvironmentVars env (pySplit e)).head?).isSome = true := by
  induction keys generalizing st with
  | nil => simp [fetchLoop] at hrun
  | cons k ks ih =>
    simp only [fetchLoop] at hrun
    cases hstep : fetchStep prompt st k with
    | error e =>
      rw [hstep] at hrun
      simp at hrun
    | ok p =>
      rw [hstep] at hrun
      obtain ⟨st2, b⟩ := p
      cases b with
      | false => exact ih st2 hrun
      | true =>
        simp only [Except.ok.injEq, Option.some.injEq] at hrun
        obtain ⟨hcmd, hcond⟩ := fetchStep_break hstep
        have hstrip2 : strip st2.command = strip st.command := by
          rw [hcmd]
          exact strip_append_space (by decide)
        have hene : strip st2.command ≠ [] := by
          rw [hstrip2]
          intro habs
          exact hcond (by rw [habs]; rfl)
        have hsplitne : pySplit (strip st2.command) ≠ [] :=
          pySplit_strip_ne_nil hene
        refine ⟨strip st2.command, ?_, ⟨st2.command, rfl⟩, hene, ?_, ?_⟩
        · rw [← hrun]
          exact History.last_add st2.history (strip st2.command)
        · have := List.length_pos.mpr hsplitne
          omega
        · intro env
          refine ⟨replaceEnvironmentVars_length env _, ?_⟩
          cases hsp : replaceEnvironmentVars env (pySplit (strip st2.command)) with
          | nil =>
            have hlen := replaceEnvironmentVars_length env (pySplit (strip st2.command))
            rw [hsp] at hlen
            have := List.length_pos.mpr hsplitne
            simp at hlen
            omega
          | cons a as => rfl

/-- C10, instantiated: typing `h` then enter commits the entry `"h"`, whose
tokenization has one token and survives substitution with its head intact. -/
theorem fetch_c10_dispatch_safety_witness :
    ∃ e, (⟨['h', '\n'], ⟨[['h']], 1⟩, [['\r', 'h'], ['\n']]⟩ : FetchState).history.last
        = some e ∧
      (∃ raw, e = strip raw) ∧ e ≠ [] ∧ 1 ≤ (pySplit e).length ∧
      ∀ env : List Char → Option (List Char),
        (replaceEnvironmentVars env (pySplit e)).length = (pySplit e).length ∧
        ((replaceEnvironmentVars env (pySplit e)).head?).isSome = true :=
  fetch_c10_dispatch_safety [] ⟨[], History.empty, []⟩ [104, 10]
    ⟨['h', '\n'], ⟨[['h']], 1⟩, [['\r', 'h'], ['\n']]⟩ (by rfl)

/-- The environment of the claim's example: only `HOME` is bound, to `/x`. -/
def envHome : List Char → Option (List Char) :=
  fun n => if n = String.toList "HOME" then some (String.toList "/x") else none

/-- C6: environment substitution treats each token independently: a token
beginning with `$` is looked up under the token minus its leading `$`;
when bound it is replaced by the bound value, otherwise (and for tokens not
beginning with `$`) it is left unchanged — in particular `"$HOME"` with
`HOME = "/x"` becomes `"/x"` and `"$UNSET"` with no such key stays
`"$UNSET"`. -/
theorem dispatcher_c6_substitution (env : List Char → Option (List Char))
    (cmd : List (List Char)) (i : Nat) :
    (replaceEnvironmentVars env cmd)[i]? =
      (cmd[i]?).map (fun t =>
        if t.head? = some '$' then (env (t.drop 1)).getD t else t) ∧
    replaceEnvironmentVars envHome [String.toList "$HOME"] = [String.toList "/x"] ∧
    replaceEnvironmentVars envHome [String.toList "$UNSET"] = [String.toList "$UNSET"] := by
  refine ⟨?_, by decide, by decide⟩
  induction cmd generalizing i with
  | nil => simp [replaceEnvironmentVars]
  | cons t rest ih =>
    cases i with
    | zero =>
      simp only [replaceEnvironmentVars, List.getElem?_cons_zero, Option.map_some']
      by_cases ht : t.head? = some '$'
      · rw [if_pos ht, if_pos ht]
        cases env (t.drop 1) with
        | none => rfl
        | some v => rfl
      · rw [if_neg ht, if_neg ht]
    | succ j =>
      simp only [replaceEnvironmentVars, List.getElem?_cons_succ]
      exact ih j

/-- Embeds the path expansion of `Shell.__changeDir` (shell.py line 189):
`path.replace("~", HOME)` — Python `str.replace` with the one-character
pattern `"~"` substitutes `HOME` for every occurrence of `~` in the path,
scanning left to right. -/
def expandTilde (home : List Char) : List Char → List Char
  | [] => []
  | c :: rest => (if c = '~' then home else [c]) ++ expandTilde home rest

/-- C7 counterexample: with `HOME = "/h"`, the path `"a~"` — whose only
`~` is not at the start — is changed to `"a/h"` before `chdir`, not passed
through unchanged as the claim requires. -/
theorem changeDir_c7_counterexample :
    expandTilde (String.toList "/h") (String.toList "a~") = String.toList "a/h" ∧
    expandTilde (String.toList "/h") (String.toList "a~") ≠ String.toList "a~" := by
  decide

/-- C7 (amended): the `cd` built-in expands every occurrence of `~` in the
path argument — leading or not — to the `HOME` value before attempting the
directory change; characters other than `~` are passed through unchanged,
so a path containing no `~` is passed through as-is. -/
theorem changeDir_c7_amended (home p q path : List Char) :
    expandTilde home (p ++ '~' :: q) =
      expandTilde home p ++ home ++ expandTilde home q ∧
    ('~' ∉ path → expandTilde home path = path) := by
  constructor
  · induction p with
    | nil => simp [expandTilde]
    | cons c rest ih =>
      simp only [List.cons_append, expandTilde, List.append_eq, ih, List.append_assoc]
  · induction path with
    | nil => intro _; rfl
    | cons c rest ih =>
      intro hmem
      have hc : ¬(c = '~') := by
        intro h
        exact hmem (by rw [h]; exact List.mem_cons_self _ _)
      have hrest : '~' ∉ rest := by
        intro h
        exact hmem (List.mem_cons_of_mem _ h)
      simp only [expandTilde, if_neg hc, List.singleton_append, ih hrest]

/-- C7 amended, instantiated: `"ab~cd"` with `HOME = "/h"` expands around
the inner `~`, and the tilde-free path `"xy"` is unchanged. -/
theorem changeDir_c7_amended_witness :
    expandTilde (String.toList "/h") (String.toList "ab" ++ '~' :: String.toList "cd") =
      expandTilde (String.toList "/h") (String.toList "ab") ++ String.toList "/h" ++
        expandTilde (String.toList "/h") (String.toList "cd") ∧
    expandTilde (String.toList "/h") (String.toList "xy") = String.toList "xy" :=
  ⟨(changeDir_c7_amended (String.toList "/h") (String.toList "ab") (String.toList "cd")
      (String.toList "xy")).1,
   (changeDir_c7_amended (String.toList "/h") (String.toList "ab") (String.toList "cd")
      (String.toList "xy")).2 (by decide)⟩
